import Mathlib

/-!
Verification of the DeepFRET analysis core (src/main/python/lib/math.py and the
analysis methods of src/main/python/main.py) against its natural-language
specification.

Modelling conventions:
* numpy float arrays of measured intensities are modelled as lists of rationals;
  the arithmetic of the source is exact rational arithmetic except where IEEE
  division by zero matters, in which case results live in `XVal`, a rational
  extended with the IEEE special values +inf, -inf and NaN produced by x/0;
* parallel numpy arrays (one value per frame and channel) are modelled as a
  list of per-frame records (`Frame`);
* pandas/NaN-valued columns are modelled with `Option`.
-/

/-- Value of one cell of a numpy float computation: either a finite rational or
one of the IEEE special values +inf, -inf, NaN that the source can produce by
dividing by zero.  Inputs (measured intensities) are always finite. -/
inductive XVal where
  | fin : ℚ → XVal
  | pinf : XVal
  | ninf : XVal
  | nan : XVal
deriving DecidableEq, Repr

/-- IEEE division of two finite values, as numpy performs it: a nonzero value
divided by zero gives a signed infinity, 0/0 gives NaN. -/
def fdiv (a b : ℚ) : XVal :=
  if b ≠ 0 then XVal.fin (a / b)
  else if 0 < a then XVal.pinf
  else if a < 0 then XVal.ninf
  else XVal.nan

/-- numpy maximum of a value against a finite bound (NaN propagates, as in
numpy.maximum). -/
def fmax : XVal → ℚ → XVal
  | XVal.fin a, c => XVal.fin (max a c)
  | XVal.pinf, _ => XVal.pinf
  | XVal.ninf, c => XVal.fin c
  | XVal.nan, _ => XVal.nan

/-- numpy minimum of a value against a finite bound (NaN propagates, as in
numpy.minimum). -/
def fmin : XVal → ℚ → XVal
  | XVal.fin a, c => XVal.fin (min a c)
  | XVal.pinf, c => XVal.fin c
  | XVal.ninf, _ => XVal.ninf
  | XVal.nan, _ => XVal.nan

/-- numpy clip: np.clip(a, cmin, cmax) = np.minimum(np.maximum(a, cmin), cmax);
NaN is propagated unchanged. -/
def npclip (x : XVal) (cmin cmax : ℚ) : XVal :=
  fmin (fmax x cmin) cmax

/-- One frame of a trace: raw intensity and background estimate for the three
channels D-Dexc (grn), A-Dexc (acc) and A-Aexc (red), as unpacked by
correctDA in lib/math.py. -/
structure Frame where
  grn_int : ℚ
  grn_bg : ℚ
  acc_int : ℚ
  acc_bg : ℚ
  red_int : ℚ
  red_bg : ℚ
deriving DecidableEq, Repr

/-- correctDA (lib/math.py lines 30-41): background-subtract each channel and
form the corrected Dexc-Aem signal F_DA = I_DA - alpha*I_DD - delta*I_AA.
Returns (F_DA, I_DD, I_DA, I_AA) for one frame. -/
def correctDA (f : Frame) (alpha delta : ℚ) : ℚ × ℚ × ℚ × ℚ :=
  let I_DD := f.grn_int - f.grn_bg
  let I_DA := f.acc_int - f.acc_bg
  let I_AA := f.red_int - f.red_bg
  (I_DA - alpha * I_DD - delta * I_AA, I_DD, I_DA, I_AA)

/-- calcFRET (lib/math.py lines 44-58): E = F_DA / (I_DD + F_DA), clipped
elementwise to [cmin, cmax] by np.clip. -/
def calcFRET (fs : List Frame) (alpha delta : ℚ) (cmin cmax : ℚ) : List XVal :=
  fs.map (fun f =>
    let c := correctDA f alpha delta
    npclip (fdiv c.1 (c.2.1 + c.1)) cmin cmax)

/-- calcStoi (lib/math.py lines 61-78):
S = (gamma*I_DD + F_DA) / (gamma*I_DD + F_DA + (1/beta)*I_AA), clipped
elementwise to [cmin, cmax] by np.clip. -/
def calcStoi (fs : List Frame) (alpha delta beta gamma : ℚ) (cmin cmax : ℚ) :
    List XVal :=
  fs.map (fun f =>
    let c := correctDA f alpha delta
    npclip
      (fdiv (gamma * c.2.1 + c.1) (gamma * c.2.1 + c.1 + (1 / beta) * c.2.2.2))
      cmin cmax)

/-- Clipping a quotient: for an ordered clip range the result is a finite value
inside the range, except in the 0/0 case, where numpy produces NaN and np.clip
propagates it. -/
theorem npclip_fdiv_cases (a b cmin cmax : ℚ) (hc : cmin ≤ cmax) :
    (a = 0 ∧ b = 0 ∧ npclip (fdiv a b) cmin cmax = XVal.nan) ∨
    (∃ q, npclip (fdiv a b) cmin cmax = XVal.fin q ∧ cmin ≤ q ∧ q ≤ cmax) := by
  unfold fdiv
  by_cases hb : b ≠ 0
  · right
    refine ⟨min (max (a / b) cmin) cmax, ?_, ?_, ?_⟩
    · simp [hb, npclip, fmax, fmin]
    · exact le_min (le_max_right _ _) hc
    · exact min_le_right _ _
  · push_neg at hb
    subst hb
    by_cases ha : 0 < a
    · right
      refine ⟨cmax, ?_, hc, le_refl _⟩
      simp [ha, npclip, fmax, fmin]
    · by_cases ha2 : a < 0
      · right
        refine ⟨cmin, ?_, le_refl _, hc⟩
        have : ¬ (0 < a) := ha
        simp [this, ha2, npclip, fmax, fmin, min_eq_left hc]
      · left
        have : a = 0 := le_antisymm (not_lt.mp ha) (not_lt.mp ha2)
        subst this
        simp [npclip, fmax, fmin]

/-- C5 (amended): for an ordered clip range, every element of the E sequence
returned by calcFRET and of the S sequence returned by calcStoi is a finite
value inside [cmin, cmax] or NaN; NaN occurs only for frames whose unclipped
ratio is 0/0 (numerator and denominator both zero), since np.clip propagates
NaN instead of saturating it.  beta is assumed nonzero because the rational
model's 1/beta differs from the float 1/0 = inf at beta = 0. -/
theorem calcFRET_calcStoi_clip_range (fs : List Frame)
    (alpha delta beta gamma cmin cmax : ℚ)
    (hc : cmin ≤ cmax) (hbeta : beta ≠ 0) :
    (∀ x ∈ calcFRET fs alpha delta cmin cmax,
      (∃ q, x = XVal.fin q ∧ cmin ≤ q ∧ q ≤ cmax) ∨ x = XVal.nan) ∧
    (XVal.nan ∈ calcFRET fs alpha delta cmin cmax →
      ∃ f ∈ fs, (correctDA f alpha delta).1 = 0 ∧
        (correctDA f alpha delta).2.1 + (correctDA f alpha delta).1 = 0) ∧
    (∀ x ∈ calcStoi fs alpha delta beta gamma cmin cmax,
      (∃ q, x = XVal.fin q ∧ cmin ≤ q ∧ q ≤ cmax) ∨ x = XVal.nan) ∧
    (XVal.nan ∈ calcStoi fs alpha delta beta gamma cmin cmax →
      ∃ f ∈ fs, gamma * (correctDA f alpha delta).2.1 +
          (correctDA f alpha delta).1 = 0 ∧
        gamma * (correctDA f alpha delta).2.1 + (correctDA f alpha delta).1 +
          (1 / beta) * (correctDA f alpha delta).2.2.2 = 0) := by
  refine ⟨?_, ?_, ?_, ?_⟩
  · intro x hx
    simp only [calcFRET, List.mem_map] at hx
    obtain ⟨f, hf, rfl⟩ := hx
    rcases npclip_fdiv_cases (correctDA f alpha delta).1
        ((correctDA f alpha delta).2.1 + (correctDA f alpha delta).1)
        cmin cmax hc with ⟨_, _, h3⟩ | ⟨q, hq, h1, h2⟩
    · exact Or.inr h3
    · exact Or.inl ⟨q, hq, h1, h2⟩
  · intro hx
    simp only [calcFRET, List.mem_map] at hx
    obtain ⟨f, hf, heq⟩ := hx
    refine ⟨f, hf, ?_⟩
    rcases npclip_fdiv_cases (correctDA f alpha delta).1
        ((correctDA f alpha delta).2.1 + (correctDA f alpha delta).1)
        cmin cmax hc with ⟨h1, h2, _⟩ | ⟨q, hq, _, _⟩
    · exact ⟨h1, h2⟩
    · rw [hq] at heq
      exact absurd heq (fun h => XVal.noConfusion h)
  · intro x hx
    simp only [calcStoi, List.mem_map] at hx
    obtain ⟨f, hf, rfl⟩ := hx
    rcases npclip_fdiv_cases
        (gamma * (correctDA f alpha delta).2.1 + (correctDA f alpha delta).1)
        (gamma * (correctDA f alpha delta).2.1 + (correctDA f alpha delta).1 +
          (1 / beta) * (correctDA f alpha delta).2.2.2)
        cmin cmax hc with ⟨_, _, h3⟩ | ⟨q, hq, h1, h2⟩
    · exact Or.inr h3
    · exact Or.inl ⟨q, hq, h1, h2⟩
  · intro hx
    simp only [calcStoi, List.mem_map] at hx
    obtain ⟨f, hf, heq⟩ := hx
    refine ⟨f, hf, ?_⟩
    rcases npclip_fdiv_cases
        (gamma * (correctDA f alpha delta).2.1 + (correctDA f alpha delta).1)
        (gamma * (correctDA f alpha delta).2.1 + (correctDA f alpha delta).1 +
          (1 / beta) * (correctDA f alpha delta).2.2.2)
        cmin cmax hc with ⟨h1, h2, _⟩ | ⟨q, hq, _, _⟩
    · exact ⟨h1, h2⟩
    · rw [hq] at heq
      exact absurd heq (fun h => XVal.noConfusion h)

/-- Witness for calcFRET_calcStoi_clip_range at a concrete trace and the
default clip range. -/
theorem calcFRET_calcStoi_clip_range_witness :
    ((-3 : ℚ)/10 ≤ 13/10) ∧ ((1 : ℚ) ≠ 0) ∧
    ((∀ x ∈ calcFRET [⟨100, 10, 50, 5, 80, 8⟩] 0 0 ((-3)/10) (13/10),
        (∃ q, x = XVal.fin q ∧ (-3)/10 ≤ q ∧ q ≤ 13/10) ∨ x = XVal.nan)) :=
  ⟨by norm_num, by norm_num,
    (calcFRET_calcStoi_clip_range [⟨100, 10, 50, 5, 80, 8⟩] 0 0 1 1
      ((-3)/10) (13/10) (by norm_num) (by norm_num)).1⟩

/-- C5 counterexample: for the all-zero frame the unclipped ratio of calcFRET
is 0/0, the output element is NaN, and NaN is not a finite value lying in the
clip range, so not every output element lies within [cmin, cmax]. -/
theorem calcFRET_clip_range_counterexample :
    calcFRET [⟨0, 0, 0, 0, 0, 0⟩] 0 0 ((-3)/10) (13/10) = [XVal.nan] ∧
    ∀ q : ℚ, XVal.nan ≠ XVal.fin q :=
  ⟨by norm_num [calcFRET, correctDA, npclip, fdiv, fmax, fmin],
    fun q h => XVal.noConfusion h⟩

/-- Rounding of one value to 4 decimal places, as DataFrame.round(4) performs
on export.  Half-way cases are rounded here with Mathlib round (half up);
pandas rounds binary half-to-even, but no concrete value used below sits on a
half-way point, so the choice is immaterial. -/
def round4 (x : ℚ) : ℚ :=
  (round (x * 10000) : ℤ) / 10000

/-- Rounding of one possibly non-finite cell: np.round leaves the special
values inf, -inf and NaN unchanged. -/
def round4X : XVal → XVal
  | XVal.fin q => XVal.fin (round4 q)
  | XVal.pinf => XVal.pinf
  | XVal.ninf => XVal.ninf
  | XVal.nan => XVal.nan

/-- Rounding of the six intensity/background columns of one frame. -/
def roundFrame (f : Frame) : Frame :=
  ⟨round4 f.grn_int, round4 f.grn_bg, round4 f.acc_int, round4 f.acc_bg,
    round4 f.red_int, round4 f.red_bg⟩

/-- Modelled from the spec: the TraceContainer class and its intensities()
accessor live in lib/container.py, which is not among the given sources.  Per
the spec's data model (section 3) and the unpacking done by correctDA,
intensities() yields the six per-frame channel arrays grn.int, grn.bg,
acc.int, acc.bg, red.int, red.bg; here they are the frames field, and the
derived E (fret) and S (stoi) sequences are the other two fields. -/
structure Trace where
  frames : List Frame
  fret : List XVal
  stoi : List XVal
deriving DecidableEq

/-- The ASCII trace table contract (main.py exportTraces, lines 1053-1085):
tab-separated columns D-Dexc-bg, A-Dexc-bg, A-Aexc-bg, D-Dexc-rw, A-Dexc-rw,
A-Aexc-rw, S, E.  The six intensity/background columns are the frames field;
Scol and Ecol are the stored stoichiometry and FRET columns.  The optional
six classifier-probability columns are omitted: neither export rounding nor
the E/S recomputation on import reads them. -/
structure AsciiTrace where
  frames : List Frame
  Scol : List XVal
  Ecol : List XVal
deriving DecidableEq

/-- exportTraces (main.py lines 1053-1085, 1112): the DataFrame holds the six
raw/background columns plus S = trace.stoi and E = trace.fret, all rounded to
4 decimals by df.round(4) and written with df.to_csv; the decimal text
round-trips exactly, so the written table is the rounded columns. -/
def exportTrace (tr : Trace) : AsciiTrace :=
  ⟨tr.frames.map roundFrame, tr.stoi.map round4X, tr.fret.map round4X⟩

/-- loadTraceFromAscii (main.py lines 2354-2369): the intensity and background
columns are copied into the trace and E and S are recomputed by
lib.math.calcFRET / lib.math.calcStoi with all-default correction factors
(alpha = delta = 0, beta = gamma = 1) and the default clip range; the S and E
columns of the file are not read into the trace. -/
def loadTraceFromAscii (f : AsciiTrace) : Trace :=
  ⟨f.frames,
    calcFRET f.frames 0 0 ((-3)/10) (13/10),
    calcStoi f.frames 0 0 1 1 ((-3)/10) (13/10)⟩

/-- C9: on import of an ASCII trace file the E and S sequences are recomputed
from the raw intensity and background columns with alpha = delta = 0 and
beta = gamma = 1; the stored E and S columns are never used, so two files with
the same intensity columns load to identical traces. -/
theorem loadTraceFromAscii_recomputes_ES (f g : AsciiTrace)
    (h : f.frames = g.frames) :
    (loadTraceFromAscii f).fret = calcFRET f.frames 0 0 ((-3)/10) (13/10) ∧
    (loadTraceFromAscii f).stoi = calcStoi f.frames 0 0 1 1 ((-3)/10) (13/10) ∧
    loadTraceFromAscii f = loadTraceFromAscii g := by
  refine ⟨rfl, rfl, ?_⟩
  simp [loadTraceFromAscii, h]

/-- Witness for loadTraceFromAscii_recomputes_ES: two concrete files sharing
intensity columns but with different stored E columns load identically. -/
theorem loadTraceFromAscii_recomputes_ES_witness :
    (AsciiTrace.mk [⟨10, 1, 5, 1, 8, 1⟩] [XVal.fin 1] [XVal.fin 1]).frames =
      (AsciiTrace.mk [⟨10, 1, 5, 1, 8, 1⟩] [XVal.fin 0] [XVal.fin 0]).frames ∧
    loadTraceFromAscii (AsciiTrace.mk [⟨10, 1, 5, 1, 8, 1⟩]
        [XVal.fin 1] [XVal.fin 1]) =
      loadTraceFromAscii (AsciiTrace.mk [⟨10, 1, 5, 1, 8, 1⟩]
        [XVal.fin 0] [XVal.fin 0]) :=
  ⟨rfl,
    (loadTraceFromAscii_recomputes_ES _ _ rfl).2.2⟩

/-- A concrete trace whose E was computed by calcFRET with the default factors
(as trace creation does): one frame with tiny intensities whose ratio is
perturbed grossly by 4-decimal rounding. -/
def roundtripTrace : Trace :=
  ⟨[⟨1/5000, 0, 1/25000, 0, 1, 0⟩],
    calcFRET [⟨1/5000, 0, 1/25000, 0, 1, 0⟩] 0 0 ((-3)/10) (13/10),
    calcStoi [⟨1/5000, 0, 1/25000, 0, 1, 0⟩] 0 0 1 1 ((-3)/10) (13/10)⟩

/-- C4 (amended): re-importing an exported trace yields E and S recomputed by
calcFRET and calcStoi with default correction factors from the rounded
intensity and background columns; the exported E and S columns are ignored, so
the recovered values need not agree with the original E and S to 4 decimal
places. -/
theorem exportImport_recomputes (tr : Trace) :
    (loadTraceFromAscii (exportTrace tr)).fret =
      calcFRET (tr.frames.map roundFrame) 0 0 ((-3)/10) (13/10) ∧
    (loadTraceFromAscii (exportTrace tr)).stoi =
      calcStoi (tr.frames.map roundFrame) 0 0 1 1 ((-3)/10) (13/10) ∧
    (∀ E S : List XVal,
      loadTraceFromAscii (exportTrace ⟨tr.frames, E, S⟩) =
        loadTraceFromAscii (exportTrace tr)) :=
  ⟨rfl, rfl, fun _ _ => rfl⟩

/-- C4 counterexample: for roundtripTrace the original E is [1/6] but the
re-imported E is [0]; they do not agree to 4 decimal places (they differ by
1/6 > 1/10000, and their 4-decimal roundings differ). -/
theorem exportImport_roundtrip_counterexample :
    roundtripTrace.fret = [XVal.fin (1/6)] ∧
    (loadTraceFromAscii (exportTrace roundtripTrace)).fret = [XVal.fin 0] ∧
    ¬ ((1/6 : ℚ) - 0 ≤ 1/10000) ∧ round4 (1/6) ≠ round4 0 := by
  refine ⟨?_, ?_, by norm_num, by norm_num [round4]⟩
  · norm_num [roundtripTrace, calcFRET, correctDA, npclip, fdiv, fmax, fmin]
  · norm_num [roundtripTrace, loadTraceFromAscii, exportTrace, roundFrame,
      round4, round4X, calcFRET, calcStoi, correctDA, npclip, fdiv, fmax, fmin,
      round_eq]

/-- leastsq_line (lib/math.py lines 21-27): np.linalg.lstsq returns the
minimum-norm least-squares solution of [x 1] @ (slope, intercept) = y.  For
nonempty x with distinct abscissae this is the classical normal-equation
solution; when all abscissae are equal the system is rank-deficient and the
minimum-norm solution on the line c*slope + intercept = mean(y) is returned;
for an empty system numpy explicitly zero-fills the solution (m == 0 branch of
numpy.linalg.lstsq), giving slope = intercept = 0. -/
def leastsq_line (x y : List ℚ) : ℚ × ℚ :=
  let n : ℚ := (x.length : ℚ)
  let sx := x.sum
  let sy := y.sum
  let sxx := (x.map (fun v => v * v)).sum
  let sxy := (List.zipWith (fun a b => a * b) x y).sum
  let d := n * sxx - sx * sx
  if x.length = 0 then (0, 0)
  else if d ≠ 0 then ((n * sxy - sx * sy) / d, (sy * sxx - sx * sxy) / d)
  else
    let c := sx / n
    let ybar := sy / n
    (c * ybar / (c * c + 1), ybar / (c * c + 1))

/-- betaGammaFactor (lib/math.py lines 141-158): keep the pairs with
0.3 < S_app < 0.7, fit a least-squares line x = E_app, y = 1/S_app, then
beta = intercept + slope - 1 and gamma = (intercept - 1)/(intercept + slope - 1)
(IEEE division: gamma is NaN exactly when numerator and denominator both
vanish, a signed infinity when only the denominator does).  The guard checks
np.isnan on (beta, gamma, slope, intercept); with finite inputs only gamma can
be NaN, and then the fallback (1, 1) is returned. -/
def betaGammaFactor (E_app S_app : List ℚ) : ℚ × XVal :=
  let pairs := (E_app.zip S_app).filter
    (fun p => decide (3/10 < p.2 ∧ p.2 < 7/10))
  let sl := leastsq_line (pairs.map Prod.fst) (pairs.map (fun p => 1 / p.2))
  let beta := sl.2 + sl.1 - 1
  let gamma := fdiv (sl.2 - 1) beta
  if gamma = XVal.nan then (1, XVal.fin 1) else (beta, gamma)

/-- C3 (code bug): at the failing input E_app = [0.5], S_app = [0.9] the
filter keeps nothing, numpy lstsq zero-fills the empty regression, so
slope = intercept = 0 and the function returns (beta, gamma) = (-1, 1): the
isnan guard does not fire and the documented identity fallback (1, 1) is not
returned. -/
theorem betaGammaFactor_empty_filter_eval :
    betaGammaFactor [1/2] [9/10] = (-1, XVal.fin 1) ∧
    betaGammaFactor [1/2] [9/10] ≠ (1, XVal.fin 1) := by
  constructor <;> norm_num [betaGammaFactor, leastsq_line, fdiv] <;> decide

/-- Zero-padded access used by scipy.signal.medfilt: positions outside the
array count as 0 (False). -/
def getPad (b : List Bool) (j : ℤ) : Bool :=
  if 0 ≤ j then b.getD j.toNat false else false

/-- Number of True entries in the length-7 window centred at i (positions
i-3 .. i+3, zero-padded at the edges). -/
def winCount (b : List Bool) (i : ℕ) : ℕ :=
  (List.range 7).countP (fun d : ℕ => getPad b ((i : ℤ) + (d : ℤ) - 3))

/-- scipy.signal.medfilt with kernel_size 7 on a 0/1 array: the output at i is
the median of the zero-padded window, i.e. True iff at least 4 of the 7 window
entries are True. -/
def medfilt7 (b : List Bool) : List Bool :=
  (List.range b.length).map (fun i => decide (4 ≤ winCount b i))

/-- The boolean series p_bleach > threshold. -/
def thresholded (p : List ℚ) (threshold : ℚ) : List Bool :=
  p.map (fun v => decide (threshold < v))

/-- Index of the first True entry, if any (np.argmax on a boolean array
returns the first True index, and 0 when all entries are False). -/
def firstTrue : List Bool → Option ℕ
  | [] => none
  | b :: t => if b then some 0 else (firstTrue t).map (fun n => n + 1)

/-- find_bleach (lib/math.py lines 366-375): median-filter the thresholded
probability series with window 7, take np.argmax of the result (first True
index, 0 when there is none), and map index 0 to None. -/
def find_bleach (p : List ℚ) (threshold : ℚ) : Option ℕ :=
  let bf := (firstTrue (medfilt7 (thresholded p threshold))).getD 0
  if bf = 0 then none else some bf

/-- A True cell of the padded series lies inside the array and is True there. -/
theorem getPad_true {b : List Bool} {j : ℤ} (h : getPad b j = true) :
    0 ≤ j ∧ j.toNat < b.length ∧ b.getD j.toNat false = true := by
  unfold getPad at h
  by_cases hj : 0 ≤ j
  · rw [if_pos hj] at h
    refine ⟨hj, ?_, h⟩
    by_contra hlen
    push_neg at hlen
    rw [List.getD_eq_default _ _ hlen] at h
    simp at h
  · rw [if_neg hj] at h
    simp at h

theorem thresholded_length (p : List ℚ) (threshold : ℚ) :
    (thresholded p threshold).length = p.length := by
  simp [thresholded]

theorem medfilt7_length (b : List Bool) : (medfilt7 b).length = b.length := by
  simp [medfilt7]

theorem thresholded_getD (p : List ℚ) (threshold : ℚ) (i : ℕ)
    (hi : i < p.length) :
    (thresholded p threshold).getD i false = decide (threshold < p.getD i 0) := by
  have hlen : i < (thresholded p threshold).length := by
    rwa [thresholded_length]
  rw [List.getD_eq_getElem _ _ hlen]
  simp only [thresholded, List.getElem_map]
  rw [List.getD_eq_getElem _ _ hi]

theorem medfilt7_getD (b : List Bool) (i : ℕ) (hi : i < b.length) :
    (medfilt7 b).getD i false = decide (4 ≤ winCount b i) := by
  have hlen : i < (medfilt7 b).length := by rwa [medfilt7_length]
  rw [List.getD_eq_getElem _ _ hlen]
  simp only [medfilt7, List.getElem_map, List.getElem_range]

/-- np.argmax of a boolean list is k when the entries below k are False and
the entry at k is True. -/
theorem firstTrue_eq_some {l : List Bool} {k : ℕ} (hk : k < l.length)
    (hf : ∀ i, i < k → l.getD i false = false) (ht : l.getD k false = true) :
    firstTrue l = some k := by
  induction l generalizing k with
  | nil => simp at hk
  | cons b t ih =>
    cases k with
    | zero =>
      rw [List.getD_cons_zero] at ht
      simp [firstTrue, ht]
    | succ k' =>
      have hb : b = false := by
        have := hf 0 (Nat.succ_pos _)
        rwa [List.getD_cons_zero] at this
      subst hb
      have hk' : k' < t.length := by simpa using hk
      have hf' : ∀ i, i < k' → t.getD i false = false := by
        intro i hi
        have := hf (i + 1) (by omega)
        rwa [List.getD_cons_succ] at this
      have ht' : t.getD k' false = true := by rwa [List.getD_cons_succ] at ht
      simp [firstTrue, ih hk' hf' ht']

/-- np.argmax finds no True entry in an all-False list. -/
theorem firstTrue_eq_none {l : List Bool}
    (hf : ∀ i, i < l.length → l.getD i false = false) : firstTrue l = none := by
  induction l with
  | nil => rfl
  | cons b t ih =>
    have hb : b = false := by
      have := hf 0 (by simp)
      rwa [List.getD_cons_zero] at this
    subst hb
    have ht : ∀ i, i < t.length → t.getD i false = false := by
      intro i hi
      have := hf (i + 1) (by simpa using hi)
      rwa [List.getD_cons_succ] at this
    simp [firstTrue, ih ht]

/-- C6: find_bleach returns None when the thresholded-and-median-filtered
series is True from frame 0 onward; and when the thresholded series is False
before frame k (k > 0) and sustained True for at least the window length 7
starting at frame k, find_bleach returns exactly k. -/
theorem find_bleach_zero_and_transition (p : List ℚ) (threshold : ℚ) (k : ℕ) :
    ((∀ i, i < p.length →
        (medfilt7 (thresholded p threshold)).getD i false = true) →
      find_bleach p threshold = none) ∧
    (0 < k → k + 7 ≤ p.length →
      (∀ i, i < k → p.getD i 0 ≤ threshold) →
      (∀ i, k ≤ i → i < k + 7 → threshold < p.getD i 0) →
      find_bleach p threshold = some k) := by
  have hblen : (thresholded p threshold).length = p.length :=
    thresholded_length p threshold
  have hmlen : (medfilt7 (thresholded p threshold)).length = p.length := by
    rw [medfilt7_length, hblen]
  constructor
  · intro hall
    by_cases hp : p.length = 0
    · have hnil : medfilt7 (thresholded p threshold) = [] := by
        rw [← List.length_eq_zero, hmlen]
        exact hp
      simp [find_bleach, hnil, firstTrue]
    · have h0 : (medfilt7 (thresholded p threshold)).getD 0 false = true :=
        hall 0 (Nat.pos_of_ne_zero hp)
      have hsome : firstTrue (medfilt7 (thresholded p threshold)) = some 0 :=
        firstTrue_eq_some (by rw [hmlen]; exact Nat.pos_of_ne_zero hp)
          (fun i hi => absurd hi (Nat.not_lt_zero i)) h0
      simp [find_bleach, hsome]
  · intro hk0 hlen hfalse htrue
    have hlow : ∀ i, i < k →
        (medfilt7 (thresholded p threshold)).getD i false = false := by
      intro i hik
      have hip : i < (thresholded p threshold).length := by omega
      rw [medfilt7_getD _ i hip]
      have hcount : winCount (thresholded p threshold) i ≤ 3 := by
        have hmono : winCount (thresholded p threshold) i ≤
            (List.range 7).countP (fun d => decide (4 ≤ d)) := by
          unfold winCount
          apply List.countP_mono_left
          intro d _ hPd
          obtain ⟨hj0, hjlen, hbj⟩ := getPad_true hPd
          have hmp : ((i : ℤ) + (d : ℤ) - 3).toNat < p.length := by omega
          rw [thresholded_getD p threshold _ hmp] at hbj
          have hlt : threshold < p.getD ((i : ℤ) + (d : ℤ) - 3).toNat 0 :=
            of_decide_eq_true hbj
          have hmk : k ≤ ((i : ℤ) + (d : ℤ) - 3).toNat := by
            by_contra hc
            push_neg at hc
            exact absurd hlt (not_lt.mpr (hfalse _ hc))
          simp only [decide_eq_true_eq]
          omega
        have h43 : (List.range 7).countP (fun d => decide (4 ≤ d)) = 3 := by
          decide
        omega
      simp only [decide_eq_false_iff_not]
      omega
    have hktrue : (medfilt7 (thresholded p threshold)).getD k false = true := by
      have hkp : k < (thresholded p threshold).length := by omega
      rw [medfilt7_getD _ k hkp]
      have h4 : 4 ≤ winCount (thresholded p threshold) k := by
        have hmono : (List.range 7).countP (fun d => decide (3 ≤ d)) ≤
            winCount (thresholded p threshold) k := by
          unfold winCount
          apply List.countP_mono_left
          intro d hd h3d
          have h3d2 : 3 ≤ d := of_decide_eq_true h3d
          have hd7 : d < 7 := List.mem_range.mp hd
          have hj0 : (0 : ℤ) ≤ (k : ℤ) + (d : ℤ) - 3 := by omega
          have hmnat : ((k : ℤ) + (d : ℤ) - 3).toNat = k + d - 3 := by omega
          unfold getPad
          rw [if_pos hj0, hmnat]
          have hmlt : k + d - 3 < p.length := by omega
          rw [thresholded_getD p threshold _ hmlt]
          have hlt : threshold < p.getD (k + d - 3) 0 :=
            htrue (k + d - 3) (by omega) (by omega)
          exact decide_eq_true hlt
        have h34 : (List.range 7).countP (fun d => decide (3 ≤ d)) = 4 := by
          decide
        omega
      simp only [decide_eq_true_eq]
      exact h4
    have hsome : firstTrue (medfilt7 (thresholded p threshold)) = some k :=
      firstTrue_eq_some (by omega) hlow hktrue
    have hkne : k ≠ 0 := Nat.pos_iff_ne_zero.mp hk0
    simp [find_bleach, hsome, hkne]

/-- Witness for find_bleach_zero_and_transition: a series bleached from frame
0 onward yields None, and a series that turns True at frame 2 and stays True
for 7 frames yields exactly 2. -/
theorem find_bleach_zero_and_transition_witness :
    find_bleach [1, 1, 1, 1, 1, 1, 1, 1, 1] 0 = none ∧
    find_bleach [0, 0, 1, 1, 1, 1, 1, 1, 1] 0 = some 2 :=
  ⟨(find_bleach_zero_and_transition [1, 1, 1, 1, 1, 1, 1, 1, 1] 0 2).1
      (by decide),
    (find_bleach_zero_and_transition [0, 0, 1, 1, 1, 1, 1, 1, 1] 0 2).2
      (by decide) (by decide) (by decide) (by decide)⟩

/-- C10: when no frame of the thresholded-and-median-filtered series is True,
np.argmax returns 0 and find_bleach maps index 0 to None, the same return
path as the bleached-from-frame-0 rule. -/
theorem find_bleach_all_false_none (p : List ℚ) (threshold : ℚ)
    (h : ∀ i, i < p.length →
      (medfilt7 (thresholded p threshold)).getD i false = false) :
    find_bleach p threshold = none := by
  have hmlen : (medfilt7 (thresholded p threshold)).length = p.length := by
    rw [medfilt7_length, thresholded_length]
  have hnone : firstTrue (medfilt7 (thresholded p threshold)) = none := by
    apply firstTrue_eq_none
    intro i hi
    exact h i (by omega)
  simp [find_bleach, hnone]

/-- Witness for find_bleach_all_false_none at a concrete never-bleached
series. -/
theorem find_bleach_all_false_none_witness :
    (∀ i, i < ([0, 0, 0] : List ℚ).length →
      (medfilt7 (thresholded [0, 0, 0] 0)).getD i false = false) ∧
    find_bleach [0, 0, 0] 0 = none :=
  ⟨by decide, find_bleach_all_false_none [0, 0, 0] 0 (by decide)⟩

/-- Column-wise sums of a list of length-6 rows (np.ndarray.sum(axis=0) for a
(frames, 6) matrix). -/
def colSums (rows : List (List ℚ)) : List ℚ :=
  rows.foldr (fun r acc => List.zipWith (fun a b => a + b) r acc)
    (List.replicate 6 0)

/-- seq_probabilities (lib/math.py lines 347-363): keep the rows whose column
0 (bleach probability) is strictly below skip_threshold; if any remain, divide
the column sums by the number of kept rows and normalize by the total, else
use the zero vector of length 6; the confidence is the sum of entries 2 and 3
of the resulting vector. -/
def seq_probabilities (yi : List (List ℚ)) (skip_threshold : ℚ) :
    List ℚ × ℚ :=
  let p := yi.filter (fun r => decide (r.headD 0 < skip_threshold))
  let v :=
    if 0 < p.length then
      let s1 := (colSums p).map (fun s => s / (p.length : ℚ))
      s1.map (fun s => s / s1.sum)
    else
      List.replicate 6 0
  (v, v.getD 2 0 + v.getD 3 0)

/-- The claim's wording of the filter, for comparison with the source: drop
exactly the frames whose column-0 probability EXCEEDS the threshold (strictly
greater), keep the rest, normalize the kept per-class sums to total 1,
confidence = entries 2 + 3, all-dropped gives zeros. -/
def seqProbabilitiesSpecStrict (yi : List (List ℚ)) (skip_threshold : ℚ) :
    List ℚ × ℚ :=
  let kept := yi.filter (fun r => decide (¬ skip_threshold < r.headD 0))
  let v :=
    if 0 < kept.length then
      (colSums kept).map (fun s => s / (colSums kept).sum)
    else
      List.replicate 6 0
  (v, v.getD 2 0 + v.getD 3 0)

/-- C7 counterexample: for a single frame whose bleach probability equals the
threshold exactly, the source drops the frame (it keeps only column-0 values
strictly below the threshold) and returns the zero vector, while the claim
(drop only if the probability exceeds the threshold) would keep it and return
the frame itself. -/
theorem seq_probabilities_exceeds_counterexample :
    seq_probabilities [[1/2, 1/2, 0, 0, 0, 0]] (1/2) ≠
      seqProbabilitiesSpecStrict [[1/2, 1/2, 0, 0, 0, 0]] (1/2) := by
  norm_num [seq_probabilities, seqProbabilitiesSpecStrict, colSums,
    List.filter, List.replicate_succ, List.zipWith]

theorem colSums_nil : colSums [] = List.replicate 6 0 := rfl

theorem colSums_cons (r : List ℚ) (t : List (List ℚ)) :
    colSums (r :: t) = List.zipWith (fun a b => a + b) r (colSums t) := rfl

theorem colSums_length (rows : List (List ℚ)) (h : ∀ r ∈ rows, r.length = 6) :
    (colSums rows).length = 6 := by
  induction rows with
  | nil => simp [colSums]
  | cons r t ih =>
    have hr : r.length = 6 := h r (List.mem_cons_self r t)
    have ht : (colSums t).length = 6 :=
      ih (fun s hs => h s (List.mem_cons_of_mem r hs))
    rw [colSums_cons, List.length_zipWith, hr, ht]
    rfl

theorem sum_zipWith_add (a b : List ℚ) (h : a.length = b.length) :
    (List.zipWith (fun x y => x + y) a b).sum = a.sum + b.sum := by
  induction a generalizing b with
  | nil =>
    cases b with
    | nil => simp
    | cons y ys => simp at h
  | cons x xs ih =>
    cases b with
    | nil => simp at h
    | cons y ys =>
      simp only [List.zipWith_cons_cons, List.sum_cons]
      rw [ih ys (by simpa using h)]
      ring

/-- For rows that are probability distributions (length 6, sum 1), the column
sums total the number of rows. -/
theorem colSums_sum (rows : List (List ℚ)) (h6 : ∀ r ∈ rows, r.length = 6)
    (h1 : ∀ r ∈ rows, r.sum = 1) : (colSums rows).sum = (rows.length : ℚ) := by
  induction rows with
  | nil => simp [colSums]
  | cons r t ih =>
    have hr6 : r.length = 6 := h6 r (List.mem_cons_self r t)
    have ht6 : ∀ s ∈ t, s.length = 6 := fun s hs => h6 s (List.mem_cons_of_mem r hs)
    have ht1 : ∀ s ∈ t, s.sum = 1 := fun s hs => h1 s (List.mem_cons_of_mem r hs)
    rw [colSums_cons,
      sum_zipWith_add r (colSums t) (by rw [hr6, colSums_length t ht6]),
      h1 r (List.mem_cons_self r t), ih ht6 ht1]
    simp only [List.length_cons]
    push_cast
    ring

theorem sum_map_div (l : List ℚ) (c : ℚ) :
    (l.map (fun x => x / c)).sum = l.sum / c := by
  induction l with
  | nil => simp
  | cons x xs ih =>
    simp only [List.map_cons, List.sum_cons, ih]
    ring

/-- C7 (amended): seq_probabilities drops the frames whose column-0 (bleach)
probability is at or above the threshold (the source keeps strictly-below
rows); when rows are probability distributions (6 entries summing to 1), the
result is the per-class sums of the remaining frames normalized to total 1,
with confidence equal to the sum of the class-2 and class-3 entries; if every
frame is dropped it returns the all-zero length-6 vector and confidence 0. -/
theorem seq_probabilities_spec (yi : List (List ℚ)) (skip_threshold : ℚ)
    (hlen : ∀ r ∈ yi, r.length = 6) (hsum : ∀ r ∈ yi, r.sum = 1) :
    (yi.filter (fun r => decide (r.headD 0 < skip_threshold)) = [] →
      seq_probabilities yi skip_threshold = (List.replicate 6 0, 0)) ∧
    (yi.filter (fun r => decide (r.headD 0 < skip_threshold)) ≠ [] →
      (seq_probabilities yi skip_threshold).1 =
        (colSums (yi.filter (fun r => decide (r.headD 0 < skip_threshold)))).map
          (fun s => s / (colSums (yi.filter
            (fun r => decide (r.headD 0 < skip_threshold)))).sum) ∧
      (seq_probabilities yi skip_threshold).1.sum = 1 ∧
      (seq_probabilities yi skip_threshold).2 =
        (seq_probabilities yi skip_threshold).1.getD 2 0 +
          (seq_probabilities yi skip_threshold).1.getD 3 0) := by
  have hp6 : ∀ r ∈ yi.filter (fun r => decide (r.headD 0 < skip_threshold)),
      r.length = 6 := fun r hr => hlen r (List.mem_of_mem_filter hr)
  have hp1 : ∀ r ∈ yi.filter (fun r => decide (r.headD 0 < skip_threshold)),
      r.sum = 1 := fun r hr => hsum r (List.mem_of_mem_filter hr)
  constructor
  · intro he
    simp only [seq_probabilities, he]
    norm_num [List.replicate_succ]
  · intro hne
    have hlp : 0 < (yi.filter
        (fun r => decide (r.headD 0 < skip_threshold))).length :=
      List.length_pos.mpr hne
    have hlq : (0 : ℚ) <
        ((yi.filter (fun r => decide (r.headD 0 < skip_threshold))).length : ℚ) := by
      exact_mod_cast hlp
    have hcs : (colSums (yi.filter
        (fun r => decide (r.headD 0 < skip_threshold)))).sum =
        ((yi.filter (fun r => decide (r.headD 0 < skip_threshold))).length : ℚ) :=
      colSums_sum _ hp6 hp1
    have hs1sum : ((colSums (yi.filter
        (fun r => decide (r.headD 0 < skip_threshold)))).map
        (fun s => s / ((yi.filter
          (fun r => decide (r.headD 0 < skip_threshold))).length : ℚ))).sum
        = 1 := by
      rw [sum_map_div, hcs, div_self (ne_of_gt hlq)]
    refine ⟨?_, ?_, ?_⟩
    · simp only [seq_probabilities, hlp, if_true, hs1sum]
      rw [hcs]
      simp [div_one, List.map_map, Function.comp]
    · simp only [seq_probabilities, hlp, if_true, hs1sum]
      simpa using hs1sum
    · simp only [seq_probabilities]

/-- Witness for seq_probabilities_spec: one frame flagged as bleached from the
start (bleach probability 1 at threshold 0) leaves no frames, giving the zero
vector and confidence 0. -/
theorem seq_probabilities_spec_witness :
    (∀ r ∈ [[(1 : ℚ), 0, 0, 0, 0, 0]], r.length = 6) ∧
    (∀ r ∈ [[(1 : ℚ), 0, 0, 0, 0, 0]], r.sum = 1) ∧
    seq_probabilities [[(1 : ℚ), 0, 0, 0, 0, 0]] 0 = (List.replicate 6 0, 0) :=
  ⟨by decide, by norm_num,
    (seq_probabilities_spec [[(1 : ℚ), 0, 0, 0, 0, 0]] 0 (by decide)
      (by norm_num)).1 (by decide)⟩

theorem exists_min_mem (s : List ℚ) (h : s ≠ []) :
    ∃ m ∈ s, ∀ y ∈ s, m ≤ y := by
  induction s with
  | nil => exact absurd rfl h
  | cons x t ih =>
    cases t with
    | nil =>
      refine ⟨x, List.mem_singleton_self x, ?_⟩
      intro y hy
      rw [List.mem_singleton.mp hy]
    | cons z zs =>
      obtain ⟨m, hm, hmin⟩ := ih (by simp)
      by_cases hxm : x ≤ m
      · refine ⟨x, List.mem_cons_self x (z :: zs), ?_⟩
        intro y hy
        rcases List.mem_cons.mp hy with rfl | hy2
        · exact le_refl y
        · exact le_trans hxm (hmin y hy2)
      · refine ⟨m, List.mem_cons_of_mem x hm, ?_⟩
        intro y hy
        rcases List.mem_cons.mp hy with rfl | hy2
        · exact le_of_not_le hxm
        · exact hmin y hy2

/-- Index of the (first) smallest score: the first two entries of
np.argpartition(s, 2) in _heuristic_bic, which the source reads as the best
and second-best index; numpy sorts such short segments fully (insertion-sort
path of introselect), so the first entry is an argmin of s. -/
def argminIdx (s : List ℚ) : ℕ :=
  s.findIdx (fun x => s.all (fun y => decide (x ≤ y)))

/-- Index of the second-smallest score: an argmin over the list with the best
index removed, mapped back to an index of s. -/
def argmin2Idx (s : List ℚ) : ℕ :=
  let b := argminIdx s
  let c := argminIdx (s.eraseIdx b)
  if c < b then c else c + 1

theorem argminIdx_lt_length (s : List ℚ) (h : s ≠ []) :
    argminIdx s < s.length := by
  apply List.findIdx_lt_length_of_exists
  obtain ⟨m, hm, hmin⟩ := exists_min_mem s h
  refine ⟨m, hm, ?_⟩
  rw [List.all_eq_true]
  intro y hy
  exact decide_eq_true (hmin y hy)

theorem argminIdx_le (s : List ℚ) (h : s ≠ []) (j : ℕ) (hj : j < s.length) :
    s.getD (argminIdx s) 0 ≤ s.getD j 0 := by
  have hlt := argminIdx_lt_length s h
  have hlt2 : s.findIdx (fun x => s.all (fun y => decide (x ≤ y))) < s.length :=
    hlt
  have hp := @List.findIdx_getElem ℚ
    (fun x => s.all (fun y => decide (x ≤ y))) s hlt2
  rw [List.all_eq_true] at hp
  have hmem : s.get ⟨j, hj⟩ ∈ s := s.get_mem j hj
  have := of_decide_eq_true (hp (s.get ⟨j, hj⟩) hmem)
  rw [List.getD_eq_getElem _ _ hlt, List.getD_eq_getElem _ _ hj]
  exact this

theorem eraseIdx_getD_lt (l : List ℚ) (i j : ℕ) (h : j < i)
    (h3 : j < l.length) : (l.eraseIdx i).getD j 0 = l.getD j 0 := by
  have h2 : j < (l.eraseIdx i).length := by
    rw [List.length_eraseIdx]
    split <;> omega
  rw [List.getD_eq_getElem _ _ h2, List.getD_eq_getElem _ _ h3]
  rw [List.getElem_eraseIdx]
  split
  · rfl
  · omega

theorem eraseIdx_getD_ge (l : List ℚ) (i j : ℕ) (hi : i < l.length)
    (h : i ≤ j) (h3 : j + 1 < l.length) :
    (l.eraseIdx i).getD j 0 = l.getD (j + 1) 0 := by
  have h2 : j < (l.eraseIdx i).length := by
    rw [List.length_eraseIdx]
    split <;> omega
  rw [List.getD_eq_getElem _ _ h2, List.getD_eq_getElem _ _ h3]
  rw [List.getElem_eraseIdx]
  split
  · omega
  · rfl

theorem argmin2Idx_spec (s : List ℚ) (h2 : 2 ≤ s.length) :
    argmin2Idx s < s.length ∧ argmin2Idx s ≠ argminIdx s ∧
      ∀ j, j < s.length → j ≠ argminIdx s →
        s.getD (argmin2Idx s) 0 ≤ s.getD j 0 := by
  have hne : s ≠ [] := by
    intro h
    rw [h] at h2
    simp at h2
  have hb : argminIdx s < s.length := argminIdx_lt_length s hne
  have helen : (s.eraseIdx (argminIdx s)).length = s.length - 1 := by
    rw [List.length_eraseIdx]
    split <;> omega
  have hene : s.eraseIdx (argminIdx s) ≠ [] := by
    intro h
    rw [← List.length_eq_zero] at h
    omega
  have hc : argminIdx (s.eraseIdx (argminIdx s)) <
      (s.eraseIdx (argminIdx s)).length :=
    argminIdx_lt_length _ hene
  have hgetc : s.getD (argmin2Idx s) 0 =
      (s.eraseIdx (argminIdx s)).getD (argminIdx (s.eraseIdx (argminIdx s))) 0 := by
    simp only [argmin2Idx]
    split
    · rw [eraseIdx_getD_lt s (argminIdx s) _ (by assumption) (by omega)]
    · rw [eraseIdx_getD_ge s (argminIdx s) _ hb (by omega) (by omega)]
  refine ⟨?_, ?_, ?_⟩
  · simp only [argmin2Idx]
    split <;> omega
  · simp only [argmin2Idx]
    split <;> omega
  · intro j hj hjb
    rw [hgetc]
    by_cases hjlt : j < argminIdx s
    · have := argminIdx_le (s.eraseIdx (argminIdx s)) hene j (by omega)
      rwa [eraseIdx_getD_lt s (argminIdx s) j hjlt (by omega)] at this
    · have hjgt : argminIdx s ≤ j - 1 := by omega
      have := argminIdx_le (s.eraseIdx (argminIdx s)) hene (j - 1) (by omega)
      rw [eraseIdx_getD_ge s (argminIdx s) (j - 1) hb hjgt (by omega)] at this
      have hjj : j - 1 + 1 = j := by omega
      rwa [hjj] at this

/-- _heuristic_bic (lib/math.py lines 198-208): take the best and second-best
index among the scores; when the second-best index is smaller (fewer states)
and the best score plus the tolerance exceeds the second-best score, return
the second-best index, else the best index. -/
def heuristic_bic (s : List ℚ) (tol : ℚ) : ℕ :=
  let best := argminIdx s
  let sec := argmin2Idx s
  if sec < best then
    if s.getD best 0 + tol > s.getD sec 0 then sec else best
  else best

/-- The model order fit_hmm (lib/math.py lines 210-231) selects: scores are
indexed by state count k = index + 1 (components ranges over 1..max), and the
model at index _heuristic_bic(scores) is chosen. -/
def fit_hmm_select (scores : List ℚ) (tol : ℚ) : ℕ :=
  heuristic_bic scores tol + 1

/-- C2: the model-order selection of fit_hmm returns the state count k (index
plus 1) with the lowest BIC score, except that when the second-lowest-scoring
index is a smaller state count than the lowest-scoring index and the lowest
score plus the tolerance exceeds the second-lowest score, it returns the
smaller-state k instead. -/
theorem fit_hmm_model_order (s : List ℚ) (tol : ℚ) (h3 : 3 ≤ s.length) :
    ∃ b c, b < s.length ∧ c < s.length ∧ c ≠ b ∧
      (∀ j, j < s.length → s.getD b 0 ≤ s.getD j 0) ∧
      (∀ j, j < s.length → j ≠ b → s.getD c 0 ≤ s.getD j 0) ∧
      fit_hmm_select s tol =
        (if c < b ∧ s.getD b 0 + tol > s.getD c 0 then c else b) + 1 := by
  have hne : s ≠ [] := by
    intro h
    rw [h] at h3
    simp at h3
  obtain ⟨hc1, hc2, hc3⟩ := argmin2Idx_spec s (by omega)
  refine ⟨argminIdx s, argmin2Idx s, argminIdx_lt_length s hne, hc1, hc2,
    fun j hj => argminIdx_le s hne j hj, hc3, ?_⟩
  by_cases h1 : argmin2Idx s < argminIdx s
  · by_cases h2 : s.getD (argminIdx s) 0 + tol > s.getD (argmin2Idx s) 0
    · simp [fit_hmm_select, heuristic_bic, h1, h2]
    · simp [fit_hmm_select, heuristic_bic, h1, h2]
  · have : ¬ (argmin2Idx s < argminIdx s ∧
        s.getD (argminIdx s) 0 + tol > s.getD (argmin2Idx s) 0) := by
      intro hx
      exact h1 hx.1
    simp [fit_hmm_select, heuristic_bic, h1, this]

/-- Witness for fit_hmm_model_order on the concrete score list [30, 5, 21]
with the default tolerance 20: the best index is 1 (k = 2), the second-best
index 2 is not smaller, so k = 2 is selected. -/
theorem fit_hmm_model_order_witness :
    3 ≤ ([30, 5, 21] : List ℚ).length ∧
    (∃ b c, b < ([30, 5, 21] : List ℚ).length ∧
      c < ([30, 5, 21] : List ℚ).length ∧ c ≠ b ∧
      (∀ j, j < ([30, 5, 21] : List ℚ).length →
        ([30, 5, 21] : List ℚ).getD b 0 ≤ ([30, 5, 21] : List ℚ).getD j 0) ∧
      (∀ j, j < ([30, 5, 21] : List ℚ).length → j ≠ b →
        ([30, 5, 21] : List ℚ).getD c 0 ≤ ([30, 5, 21] : List ℚ).getD j 0) ∧
      fit_hmm_select [30, 5, 21] 20 =
        (if c < b ∧ ([30, 5, 21] : List ℚ).getD b 0 + 20 >
            ([30, 5, 21] : List ℚ).getD c 0 then c else b) + 1) :=
  ⟨by decide, fit_hmm_model_order [30, 5, 21] 20 (by decide)⟩

/-- Return value of fit_gaussian_mixture: either the bare Python pair
(None, None) returned on the insufficient-data path, or the dictionary with
keys params (sorted (mean, sigma, weight) tuples), bics and best_k. -/
inductive GMReturn where
  | nonePair : GMReturn
  | result : List (ℚ × ℚ × ℚ) → List ℚ → Option ℕ → GMReturn
deriving DecidableEq

/-- The k_states argument of fit_gaussian_mixture: a Python range(lo, hi) or
a fixed state count. -/
inductive KStates where
  | krange : ℕ → ℕ → KStates
  | fixed : ℕ → KStates
deriving DecidableEq

/-- Sorting of mixture components by mean ascending (sorted with key = first
tuple entry). -/
def sortParams (ps : List (ℚ × ℚ × ℚ)) : List (ℚ × ℚ × ℚ) :=
  ps.mergeSort (fun a b => decide (a.1 ≤ b.1))

/-- fit_gaussian_mixture (lib/math.py lines 269-331): with fewer than 2
samples it returns the bare pair (None, None); otherwise it fits sklearn
GaussianMixture models (the EM fit itself is external library code, abstracted
here as the functions fitGM, giving the (mean, sigma, weight) tuples of the
fitted k-component model, and bicOf, giving its BIC score), collecting BICs
over a range of k and refitting at best_k = argmin + 1, or fitting one fixed
k, and returns the dictionary of mean-sorted params, bics and best_k. -/
def fit_gaussian_mixture (fitGM : ℕ → List (ℚ × ℚ × ℚ)) (bicOf : ℕ → ℚ)
    (arr : List ℚ) (k_states : KStates) : GMReturn :=
  if arr.length < 2 then GMReturn.nonePair
  else
    match k_states with
    | KStates.krange lo hi =>
        let ks := List.range' lo (hi - lo)
        let bics := ks.map bicOf
        let best_k := argminIdx bics + 1
        GMReturn.result (sortParams (fitGM best_k)) bics (some best_k)
    | KStates.fixed k =>
        GMReturn.result (sortParams (fitGM k)) [] none

/-- C8 (amended): with fewer than 2 samples fit_gaussian_mixture returns,
without raising, the bare tuple (None, None), a value which does not carry
the params/bics/best_k result shape (the caller detects it through the
TypeError raised when indexing the tuple with a string key). -/
theorem fit_gaussian_mixture_insufficient_data
    (fitGM : ℕ → List (ℚ × ℚ × ℚ)) (bicOf : ℕ → ℚ) (arr : List ℚ)
    (ks : KStates) (h : arr.length < 2) :
    fit_gaussian_mixture fitGM bicOf arr ks = GMReturn.nonePair ∧
    ∀ params bics bk,
      GMReturn.nonePair ≠ GMReturn.result params bics bk := by
  constructor
  · simp [fit_gaussian_mixture, h]
  · intro params bics bk hx
    exact GMReturn.noConfusion hx

/-- Witness for fit_gaussian_mixture_insufficient_data on a one-sample
array. -/
theorem fit_gaussian_mixture_insufficient_data_witness :
    ([0] : List ℚ).length < 2 ∧
    fit_gaussian_mixture (fun _ => []) (fun _ => 0) [0] (KStates.fixed 2) =
      GMReturn.nonePair :=
  ⟨by decide,
    (fit_gaussian_mixture_insufficient_data (fun _ => []) (fun _ => 0) [0]
      (KStates.fixed 2) (by decide)).1⟩

/-- C8 counterexample: on a one-sample array the returned no-fit value is the
bare pair (None, None), not a value of the params/bics/best_k result shape
that the claim describes. -/
theorem fit_gaussian_mixture_shape_counterexample :
    ¬ ∃ params bics bk,
      fit_gaussian_mixture (fun _ => []) (fun _ => 0) [0] (KStates.fixed 2) =
        GMReturn.result params bics bk := by
  intro hex
  obtain ⟨params, bics, bk, h⟩ := hex
  simp [fit_gaussian_mixture] at h

/-- The kept rows of fit_hmm's lifetime table (lib/math.py lines 241-253),
walking the idealized signal with its 1-based time column:
lf["y_after"] = np.roll(y_fit, -1) pairs each frame with the next frame's
idealized value (the last frame wraps to the first value, passed here as hq);
lf["state_jump"] = cumulative count of nonzero differences of y_fit, so
drop_duplicates(subset="state_jump", keep="last") keeps exactly the last
frame of every constant run: the frames whose successor differs (plus the
final frame).  Each kept row is (time, y_before, y_after). -/
def keptRowsAux (hq : ℚ) : List ℚ → ℕ → List (ℕ × ℚ × ℚ)
  | [], _ => []
  | [x], t => [(t, x, hq)]
  | x :: y :: rest, t =>
    if x = y then keptRowsAux hq (y :: rest) (t + 1)
    else (t, x, y) :: keptRowsAux hq (y :: rest) (t + 1)

/-- lf["lifetime"] = np.append(np.nan, np.diff(lf["time"])) over the kept
rows (lib/math.py line 256): each row after the first gets the difference of
its time to the previous kept time (times increase, so the numpy float
difference is this natural-number difference); the first row's lifetime is
NaN, modelled as none and attached by the caller. -/
def lifetimesFrom (prev : ℕ) : List (ℕ × ℚ × ℚ) → List (ℚ × ℚ × Option ℕ)
  | [] => []
  | (t, b, a) :: rest => (b, a, some (t - prev)) :: lifetimesFrom t rest

/-- The transition table produced by fit_hmm (lib/math.py lines 241-260) from
an idealized signal: rows (y_before, y_after, lifetime) over the kept frames,
the first row's lifetime NaN (none), and lf = lf[:-1] dropping the final
row. -/
def transTable (l : List ℚ) : List (ℚ × ℚ × Option ℕ) :=
  match l with
  | [] => []
  | h :: rest =>
    (match keptRowsAux h (h :: rest) 1 with
     | [] => []
     | (t0, b0, a0) :: more =>
       (b0, a0, none) :: lifetimesFrom t0 more).dropLast

/-- A run-length encoded signal: (value, run length) pairs expanded to the
idealized per-frame list. -/
def expandRuns : List (ℚ × ℕ) → List ℚ
  | [] => []
  | (v, n) :: rest => List.replicate n v ++ expandRuns rest

/-- The rows the kept frames produce before the final-row drop, for runs
starting after an earlier boundary: one row per run, carrying the next run's
value (the last run wraps to hq) and its own length as lifetime. -/
def specAll (hq : ℚ) : List (ℚ × ℕ) → List (ℚ × ℚ × Option ℕ)
  | [] => []
  | [(v, n)] => [(v, hq, some n)]
  | (v, n) :: (w, m) :: rest => (v, w, some n) :: specAll hq ((w, m) :: rest)

/-- One row per adjacent run pair: (value before, value after, length of the
run before), stopping before the final run. -/
def specTail : List (ℚ × ℕ) → List (ℚ × ℚ × Option ℕ)
  | (v, n) :: (w, m) :: rest => (v, w, some n) :: specTail ((w, m) :: rest)
  | _ => []

/-- The table the code produces for a run-length encoded signal: no rows for
fewer than two runs; otherwise one row per state change excluding the final
run, the first row with lifetime NaN (none) and each later row with the
length of the run before its change. -/
def runsTable : List (ℚ × ℕ) → List (ℚ × ℚ × Option ℕ)
  | [] => []
  | [_] => []
  | (v, _) :: (w, m) :: rest => (v, w, none) :: specTail ((w, m) :: rest)

theorem keptRowsAux_replicate (hq v : ℚ) (n t : ℕ) (hn : 1 ≤ n) :
    keptRowsAux hq (List.replicate n v) t = [(t + n - 1, v, hq)] := by
  induction n generalizing t with
  | zero => omega
  | succ m ih =>
    cases m with
    | zero => simp [keptRowsAux]
    | succ m2 =>
      have hstep : List.replicate (m2 + 2) v = v :: List.replicate (m2 + 1) v :=
        rfl
      have hstep2 : List.replicate (m2 + 1) v = v :: List.replicate m2 v := rfl
      rw [hstep, hstep2]
      have hk : keptRowsAux hq (v :: v :: List.replicate m2 v) t =
          keptRowsAux hq (v :: List.replicate m2 v) (t + 1) := by
        simp [keptRowsAux]
      rw [hk, ← hstep2, ih (t + 1) (by omega)]
      have : t + 1 + (m2 + 1) - 1 = t + (m2 + 2) - 1 := by omega
      rw [this]

theorem keptRowsAux_replicate_append (hq v y : ℚ) (rest : List ℚ) (n t : ℕ)
    (hn : 1 ≤ n) (hvy : v ≠ y) :
    keptRowsAux hq (List.replicate n v ++ y :: rest) t =
      (t + n - 1, v, y) :: keptRowsAux hq (y :: rest) (t + n) := by
  induction n generalizing t with
  | zero => omega
  | succ m ih =>
    cases m with
    | zero =>
      simp [keptRowsAux, hvy]
    | succ m2 =>
      have hstep : List.replicate (m2 + 2) v ++ y :: rest =
          v :: (List.replicate (m2 + 1) v ++ y :: rest) := rfl
      have hstep2 : List.replicate (m2 + 1) v ++ y :: rest =
          v :: (List.replicate m2 v ++ y :: rest) := rfl
      rw [hstep, hstep2]
      have hk : keptRowsAux hq
          (v :: v :: (List.replicate m2 v ++ y :: rest)) t =
          keptRowsAux hq (v :: (List.replicate m2 v ++ y :: rest)) (t + 1) := by
        simp [keptRowsAux]
      rw [hk, ← hstep2, ih (t + 1) (by omega)]
      have h1 : t + 1 + (m2 + 1) - 1 = t + (m2 + 2) - 1 := by omega
      have h2 : t + 1 + (m2 + 1) = t + (m2 + 2) := by omega
      rw [h1, h2]

theorem lifetimesFrom_keptRowsAux (hq : ℚ) (rs : List (ℚ × ℕ)) :
    ∀ t, rs ≠ [] → (∀ p ∈ rs, 1 ≤ p.2) →
      List.Chain' (fun a b => a ≠ b) (rs.map Prod.fst) →
      lifetimesFrom t (keptRowsAux hq (expandRuns rs) (t + 1)) =
        specAll hq rs := by
  induction rs with
  | nil =>
    intro t hne _ _
    exact absurd rfl hne
  | cons p rest ih =>
    obtain ⟨v, n⟩ := p
    intro t _ hpos hadj
    have hn : 1 ≤ n := hpos (v, n) (List.mem_cons_self _ _)
    cases rest with
    | nil =>
      have hexp : expandRuns [(v, n)] = List.replicate n v := by
        simp [expandRuns]
      rw [hexp, keptRowsAux_replicate hq v n (t + 1) hn]
      have harith : t + 1 + n - 1 - t = n := by omega
      simp [lifetimesFrom, specAll, harith]
    | cons q rest2 =>
      obtain ⟨w, m⟩ := q
      have hm : 1 ≤ m := hpos (w, m) (by simp)
      have hchain : List.Chain' (fun a b => a ≠ b)
          (v :: w :: rest2.map Prod.fst) := by
        simpa using hadj
      have hvw : v ≠ w := (List.chain'_cons.mp hchain).1
      have htail : List.Chain' (fun a b => a ≠ b)
          (((w, m) :: rest2).map Prod.fst) := by
        simpa using (List.chain'_cons.mp hchain).2
      have hexp2 : expandRuns ((w, m) :: rest2) =
          w :: (List.replicate (m - 1) w ++ expandRuns rest2) := by
        cases m with
        | zero => omega
        | succ m2 => simp [expandRuns, List.replicate_succ]
      have hexp : expandRuns ((v, n) :: (w, m) :: rest2) =
          List.replicate n v ++
            (w :: (List.replicate (m - 1) w ++ expandRuns rest2)) := by
        rw [← hexp2]
        rfl
      rw [hexp, keptRowsAux_replicate_append hq v w _ n (t + 1) hn hvw]
      simp only [lifetimesFrom]
      rw [← hexp2]
      have e1 : t + 1 + n - 1 = t + n := by omega
      have e2 : t + 1 + n = t + n + 1 := by omega
      rw [e1, e2,
        ih (t + n) (by simp) (fun p hp => hpos p (List.mem_cons_of_mem _ hp))
          htail]
      have e3 : t + n - t = n := by omega
      simp [specAll, e3]

theorem dropLast_specAll (hq : ℚ) (rs : List (ℚ × ℕ)) (hne : rs ≠ []) :
    (specAll hq rs).dropLast = specTail rs := by
  induction rs with
  | nil => exact absurd rfl hne
  | cons p rest ih =>
    obtain ⟨v, n⟩ := p
    cases rest with
    | nil => rfl
    | cons q rest2 =>
      obtain ⟨w, m⟩ := q
      have hih := ih (by simp)
      have hspec : specAll hq ((v, n) :: (w, m) :: rest2) =
          (v, w, some n) :: specAll hq ((w, m) :: rest2) := rfl
      rw [hspec]
      obtain ⟨b, l2, hbl⟩ :
          ∃ b l2, specAll hq ((w, m) :: rest2) = b :: l2 := by
        cases hsa : specAll hq ((w, m) :: rest2) with
        | nil =>
          exfalso
          cases rest2 <;> simp [specAll] at hsa
        | cons b l2 => exact ⟨b, l2, rfl⟩
      rw [hbl, List.dropLast_cons₂, ← hbl, hih]
      rfl

theorem transTable_eq (h : ℚ) (rest : List ℚ) (t0 : ℕ) (b0 a0 : ℚ)
    (more : List (ℕ × ℚ × ℚ))
    (hk : keptRowsAux h (h :: rest) 1 = (t0, b0, a0) :: more) :
    transTable (h :: rest) =
      ((b0, a0, none) :: lifetimesFrom t0 more).dropLast := by
  show (match keptRowsAux h (h :: rest) 1 with
    | [] => []
    | (t0, b0, a0) :: more =>
      (b0, a0, none) :: lifetimesFrom t0 more).dropLast =
    ((b0, a0, none) :: lifetimesFrom t0 more).dropLast
  rw [hk]

/-- C1 (amended): for an idealized signal of constant-value runs (adjacent
values distinct, run lengths positive), the transition table of fit_hmm has
one row per state change with the final run excluded; the first row's
lifetime is NaN (np.append(np.nan, np.diff(times)) gives the first kept row
no predecessor), and each later row's lifetime is the run length of the state
before its change. -/
theorem fit_hmm_transition_table (rs : List (ℚ × ℕ))
    (hpos : ∀ p ∈ rs, 1 ≤ p.2)
    (hadj : List.Chain' (fun a b => a ≠ b) (rs.map Prod.fst)) :
    transTable (expandRuns rs) = runsTable rs := by
  cases rs with
  | nil => rfl
  | cons p rest =>
    obtain ⟨v, n⟩ := p
    have hn : 1 ≤ n := hpos (v, n) (List.mem_cons_self _ _)
    cases rest with
    | nil =>
      have hexp : expandRuns [(v, n)] = v :: List.replicate (n - 1) v := by
        cases n with
        | zero => omega
        | succ n2 => simp [expandRuns, List.replicate_succ]
      have hrep : (v : ℚ) :: List.replicate (n - 1) v = List.replicate n v := by
        cases n with
        | zero => omega
        | succ n2 => simp [List.replicate_succ]
      have hk : keptRowsAux v (v :: List.replicate (n - 1) v) 1 =
          (1 + n - 1, v, v) :: [] := by
        rw [hrep, keptRowsAux_replicate v v n 1 hn]
      rw [hexp, transTable_eq v _ _ _ _ _ hk]
      simp [lifetimesFrom, runsTable]
    | cons q rest2 =>
      obtain ⟨w, m⟩ := q
      have hm : 1 ≤ m := hpos (w, m) (by simp)
      have hchain : List.Chain' (fun a b => a ≠ b)
          (v :: w :: rest2.map Prod.fst) := by
        simpa using hadj
      have hvw : v ≠ w := (List.chain'_cons.mp hchain).1
      have htail : List.Chain' (fun a b => a ≠ b)
          (((w, m) :: rest2).map Prod.fst) := by
        simpa using (List.chain'_cons.mp hchain).2
      have hexp2 : expandRuns ((w, m) :: rest2) =
          w :: (List.replicate (m - 1) w ++ expandRuns rest2) := by
        cases m with
        | zero => omega
        | succ m2 => simp [expandRuns, List.replicate_succ]
      have hl : expandRuns ((v, n) :: (w, m) :: rest2) =
          v :: (List.replicate (n - 1) v ++ expandRuns ((w, m) :: rest2)) := by
        cases n with
        | zero => omega
        | succ n2 => simp [expandRuns, List.replicate_succ]
      have hrep : (v : ℚ) ::
          (List.replicate (n - 1) v ++ expandRuns ((w, m) :: rest2)) =
          List.replicate n v ++ expandRuns ((w, m) :: rest2) := by
        cases n with
        | zero => omega
        | succ n2 => simp [List.replicate_succ]
      have hk : keptRowsAux v
          (v :: (List.replicate (n - 1) v ++ expandRuns ((w, m) :: rest2))) 1 =
          (1 + n - 1, v, w) ::
            keptRowsAux v (expandRuns ((w, m) :: rest2)) (1 + n) := by
        rw [hrep, hexp2,
          keptRowsAux_replicate_append v v w _ n 1 hn hvw, ← hexp2]
      rw [hl, transTable_eq v _ _ _ _ _ hk]
      have e1 : 1 + n - 1 = n := by omega
      have e2 : 1 + n = n + 1 := by omega
      rw [e1, e2,
        lifetimesFrom_keptRowsAux v ((w, m) :: rest2) n (by simp)
          (fun p hp => hpos p (List.mem_cons_of_mem _ hp)) htail]
      obtain ⟨b, l2, hbl⟩ :
          ∃ b l2, specAll v ((w, m) :: rest2) = b :: l2 := by
        cases hsa : specAll v ((w, m) :: rest2) with
        | nil =>
          exfalso
          cases rest2 <;> simp [specAll] at hsa
        | cons b l2 => exact ⟨b, l2, rfl⟩
      rw [hbl, List.dropLast_cons₂, ← hbl,
        dropLast_specAll v ((w, m) :: rest2) (by simp)]
      rfl

/-- Witness for fit_hmm_transition_table at the runs (1,3), (2,2), (3,1) of
the claim's example signal [a,a,a,b,b,c]. -/
theorem fit_hmm_transition_table_witness :
    (∀ p ∈ [((1 : ℚ), 3), (2, 2), (3, 1)], 1 ≤ p.2) ∧
    List.Chain' (fun a b => a ≠ b)
      ([((1 : ℚ), 3), (2, 2), (3, 1)].map Prod.fst) ∧
    transTable (expandRuns [((1 : ℚ), 3), (2, 2), (3, 1)]) =
      runsTable [((1 : ℚ), 3), (2, 2), (3, 1)] :=
  ⟨by decide, by norm_num [List.chain'_cons, List.chain'_singleton],
    fit_hmm_transition_table [((1 : ℚ), 3), (2, 2), (3, 1)] (by decide)
      (by norm_num [List.chain'_cons, List.chain'_singleton])⟩

/-- C1 counterexample: for the idealized signal [1,1,1,2,2,3] (runs of the
claim's [a,a,a,b,b,c]) the code's table is [(1,2,NaN), (2,3,2)]: the first
row's lifetime is NaN, not 3 as the claim states. -/
theorem fit_hmm_transition_table_counterexample :
    transTable [1, 1, 1, 2, 2, 3] = [(1, 2, none), (2, 3, some 2)] ∧
    transTable [1, 1, 1, 2, 2, 3] ≠
      [((1 : ℚ), (2 : ℚ), (some 3 : Option ℕ)), (2, 3, some 2)] := by
  constructor <;> decide
